import Mathlib

/-!
# Verification of the fbas_analyzer core against its specification

Shallow embedding of the repository's core (`src/quorums.rs` and
`src/simulation/quorum_set_configurators/random.rs`) in Lean 4:
the FBAS data model, the recursive quorum predicate, the minimal-quorum
enumeration with its minimality filter, the quorum-intersection decision,
and the `SimpleRandomQsc` quorum-set configurator (with the random
sampling abstracted into an explicit sampling-function parameter).

Node sets (`BitSet` in the source) are modelled as `Finset Nat`;
`NodeID`/`NodeId` is `Nat`.
-/

/-- `QuorumSet` from the source: a threshold, a list of validators and a
list of inner quorum sets (a finite tree). -/
inductive QuorumSet : Type where
  | mk (threshold : Nat) (validators : List Nat) (inner_quorum_sets : List QuorumSet)
deriving Inhabited

/-- `threshold` field accessor. -/
def QuorumSet.threshold : QuorumSet → Nat
  | .mk t _ _ => t

/-- `validators` field accessor. -/
def QuorumSet.validators : QuorumSet → List Nat
  | .mk _ vs _ => vs

/-- `inner_quorum_sets` field accessor. -/
def QuorumSet.inner_quorum_sets : QuorumSet → List QuorumSet
  | .mk _ _ inner => inner

/-- `QuorumSet::new()`: the empty ("unconfigured") quorum set. -/
def QuorumSet.new : QuorumSet := .mk 0 [] []

/-- `Node`: a public key (opaque, never interpreted by the core) and a
quorum set. -/
structure Node where
  public_key : String
  quorum_set : QuorumSet

/-- The node used when indexing out of range in the model (the Rust code
panics there; theorems about `Network.is_quorum` therefore carry an
in-range hypothesis wherever lookups matter). -/
def dfltNode : Node := { public_key := "", quorum_set := QuorumSet.new }

/-- `Network` / `Fbas`: an ordered list of nodes; the NodeId of a node is
its position. -/
structure Network where
  nodes : List Node

/-- `found_validator_matches` in `QuorumSet::is_quorum`:
`validators.iter().filter(|x| node_set.contains(**x)).take(threshold).count()`. -/
def foundValidatorMatches (q : QuorumSet) (node_set : Finset Nat) : Nat :=
  ((q.validators.filter (fun x => decide (x ∈ node_set))).take q.threshold).length

mutual

/-- `QuorumSet::is_quorum` from the source: count validator matches
(capped by `take(threshold)`), then inner-quorum-set matches (capped by
`take(threshold - found_validator_matches)`), and compare the sum with
the threshold. -/
def QuorumSet.is_quorum : QuorumSet → Finset Nat → Bool
  | .mk t vs inner, node_set =>
    let found_validator_matches := foundValidatorMatches (.mk t vs inner) node_set
    let found_inner_quorum_set_matches :=
      ((QuorumSet.filterIsQuorum inner node_set).take
        (t - found_validator_matches)).length
    found_validator_matches + found_inner_quorum_set_matches == t

/-- `inner_quorum_sets.iter().filter(|x| x.is_quorum(node_set))`,
written as explicit recursion so that the nested recursion is structural. -/
def QuorumSet.filterIsQuorum : List QuorumSet → Finset Nat → List QuorumSet
  | [], _ => []
  | q :: qs, node_set =>
    if QuorumSet.is_quorum q node_set then
      q :: QuorumSet.filterIsQuorum qs node_set
    else
      QuorumSet.filterIsQuorum qs node_set

end

/-- `Node::is_quorum`: delegate to the quorum set. -/
def Node.is_quorum (n : Node) (node_set : Finset Nat) : Bool :=
  n.quorum_set.is_quorum node_set

/-- `Network::is_quorum`: non-empty, and no member of the set fails its
own quorum-set check. The source walks the bitset with
`find(|x| !nodes[x].is_quorum(node_set)) == None`, i.e. no member fails,
which is the bounded universal below (the iteration order is
irrelevant). -/
def Network.is_quorum (net : Network) (node_set : Finset Nat) : Bool :=
  !decide (node_set = ∅) &&
    decide (∀ x ∈ node_set, (net.nodes.getD x dfltNode).is_quorum node_set = true)

mutual

/-- Modelled from the spec's words (for the refinement claim): "A QuorumSet
Q is satisfied by a node set S iff the count of Q's validators that lie in
S plus the count of Q's inner quorum sets satisfied by S is ≥ Q.threshold". -/
def QuorumSet.satisfiedSpec : QuorumSet → Finset Nat → Bool
  | .mk t vs inner, s =>
    decide (t ≤ vs.countP (fun x => decide (x ∈ s)) + QuorumSet.countSat inner s)

/-- Count of the quorum sets in the list that are satisfied by `s`. -/
def QuorumSet.countSat : List QuorumSet → Finset Nat → Nat
  | [], _ => 0
  | q :: qs, s =>
    (if QuorumSet.satisfiedSpec q s then 1 else 0) + QuorumSet.countSat qs s

end

/-- Induction over the quorum-set tree: to prove `P q` for all `q`, it
suffices to prove it for `mk t vs inner` given `P` on every member of
`inner`. -/
theorem QuorumSet.tree_induction {P : QuorumSet → Prop}
    (h : ∀ t vs inner, (∀ q ∈ inner, P q) → P (QuorumSet.mk t vs inner)) :
    ∀ q, P q := by
  suffices hs : ∀ n q, sizeOf q ≤ n → P q by
    intro q; exact hs (sizeOf q) q le_rfl
  intro n
  induction n with
  | zero =>
    intro q hq
    cases q with
    | mk t vs inner => simp at hq
  | succ n ih =>
    intro q hq
    cases q with
    | mk t vs inner =>
      apply h
      intro q hqmem
      apply ih
      have hlt : sizeOf q < sizeOf inner := List.sizeOf_lt_of_mem hqmem
      have : sizeOf (QuorumSet.mk t vs inner) = 1 + sizeOf t + sizeOf vs + sizeOf inner := by
        simp
      omega

theorem filterIsQuorum_eq (qs : List QuorumSet) (s : Finset Nat) :
    QuorumSet.filterIsQuorum qs s = qs.filter (fun q => q.is_quorum s) := by
  induction qs with
  | nil => rfl
  | cons q rest ih =>
    rw [QuorumSet.filterIsQuorum, List.filter_cons]
    split <;> simp_all

theorem countSat_eq (qs : List QuorumSet) (s : Finset Nat) :
    QuorumSet.countSat qs s = qs.countP (fun q => q.satisfiedSpec s) := by
  induction qs with
  | nil => rfl
  | cons q rest ih =>
    rw [QuorumSet.countSat, List.countP_cons, ih]
    omega

theorem foundValidatorMatches_eq (q : QuorumSet) (s : Finset Nat) :
    foundValidatorMatches q s =
      min q.threshold (q.validators.countP (fun x => decide (x ∈ s))) := by
  rw [foundValidatorMatches, List.length_take, ← List.countP_eq_length_filter]

/-- The source predicate coincides with the spec's counting formulation:
the `take`-capped counts succeed exactly when the uncapped counts reach
the threshold. -/
theorem is_quorum_eq_satisfiedSpec (q : QuorumSet) (s : Finset Nat) :
    q.is_quorum s = q.satisfiedSpec s := by
  induction q using QuorumSet.tree_induction with
  | _ t vs inner ih =>
    rw [QuorumSet.is_quorum, QuorumSet.satisfiedSpec]
    have hfilter : (QuorumSet.filterIsQuorum inner s).length
        = inner.countP (fun q => q.satisfiedSpec s) := by
      rw [filterIsQuorum_eq, ← List.countP_eq_length_filter]
      exact List.countP_congr (fun q hq => by rw [ih q hq])
    have hfv := foundValidatorMatches_eq (QuorumSet.mk t vs inner) s
    rw [QuorumSet.threshold, QuorumSet.validators] at hfv
    rw [List.length_take, hfilter, ← countSat_eq]
    rw [Bool.eq_iff_iff, beq_iff_eq, decide_eq_true_iff]
    rw [hfv]
    omega

theorem Network.is_quorum_iff (net : Network) (s : Finset Nat) :
    net.is_quorum s = true ↔
      s ≠ ∅ ∧ ∀ x ∈ s, (net.nodes.getD x dfltNode).is_quorum s = true := by
  rw [Network.is_quorum]
  simp only [Bool.and_eq_true, Bool.not_eq_true', decide_eq_false_iff_not,
    decide_eq_true_iff]

/-- The 3-node network of `test_data/correct_trivial.json`: three nodes,
each with quorum set `threshold 2, validators [0, 1, 2]`. -/
def correctTrivial : Network :=
  { nodes :=
      [ { public_key := "n0", quorum_set := .mk 2 [0, 1, 2] [] },
        { public_key := "n1", quorum_set := .mk 2 [0, 1, 2] [] },
        { public_key := "n2", quorum_set := .mk 2 [0, 1, 2] [] } ] }

/-- C1: `is_quorum(F, S)` is true iff `S` is non-empty and every node of
`S` has its quorum set satisfied by `S`, where satisfaction is the spec's
counting formulation; and the empty set is never a quorum. -/
theorem C1_network_quorum_characterization (net : Network) (s : Finset Nat)
    (h : ∀ x ∈ s, x < net.nodes.length) :
    (net.is_quorum s = true ↔
      s.Nonempty ∧
        ∀ x ∈ s, (net.nodes.getD x dfltNode).quorum_set.satisfiedSpec s = true) ∧
    net.is_quorum ∅ = false := by
  constructor
  · rw [Network.is_quorum_iff]
    constructor
    · rintro ⟨h1, h2⟩
      refine ⟨Finset.nonempty_iff_ne_empty.mpr h1, fun x hx => ?_⟩
      rw [← is_quorum_eq_satisfiedSpec]
      exact h2 x hx
    · rintro ⟨h1, h2⟩
      refine ⟨Finset.nonempty_iff_ne_empty.mp h1, fun x hx => ?_⟩
      rw [Node.is_quorum, is_quorum_eq_satisfiedSpec]
      exact h2 x hx
  · rw [Network.is_quorum]
    simp

/-- Witness for C1 at the concrete 3-node network and `S = {0, 1}`. -/
theorem C1_witness :
    (∀ x ∈ ({0, 1} : Finset Nat), x < correctTrivial.nodes.length) ∧
      (correctTrivial.is_quorum {0, 1} = true ↔
        ({0, 1} : Finset Nat).Nonempty ∧
          ∀ x ∈ ({0, 1} : Finset Nat),
            (correctTrivial.nodes.getD x dfltNode).quorum_set.satisfiedSpec {0, 1} = true) ∧
      correctTrivial.is_quorum ∅ = false :=
  ⟨by decide, C1_network_quorum_characterization correctTrivial {0, 1} (by decide)⟩

/-- C5 as stated is false: the empty QuorumSet (threshold 0, no
validators, no inner quorum sets) is satisfied by the non-empty set
`{0}` — its threshold 0 is reached trivially. -/
theorem C5_counterexample : QuorumSet.new.is_quorum ({0} : Finset Nat) = true := by
  decide

/-- C5 amended: the empty QuorumSet is satisfied by **every** node set
(threshold 0 is always reached), so a node whose quorum set is the empty
QuorumSet never blocks a set from being a quorum. -/
theorem C5_amended (s : Finset Nat) : QuorumSet.new.is_quorum s = true := by
  rw [QuorumSet.new, QuorumSet.is_quorum]
  rfl

theorem countSat_mono (s t : Finset Nat) :
    ∀ qs : List QuorumSet,
      (∀ q ∈ qs, q.satisfiedSpec s = true → q.satisfiedSpec t = true) →
      QuorumSet.countSat qs s ≤ QuorumSet.countSat qs t := by
  intro qs
  induction qs with
  | nil => intro _; rfl
  | cons q rest ih =>
    intro h
    rw [QuorumSet.countSat, QuorumSet.countSat]
    have hrest := ih fun q hq => h q (List.mem_cons_of_mem _ hq)
    by_cases hq : q.satisfiedSpec s = true
    · rw [hq, h q (List.mem_cons_self q rest) hq]
      omega
    · have : (if q.satisfiedSpec s then 1 else 0) = 0 := by
        simp [hq]
      rw [this]
      split <;> omega

theorem satisfiedSpec_mono (q : QuorumSet) :
    ∀ s t : Finset Nat, s ⊆ t →
      q.satisfiedSpec s = true → q.satisfiedSpec t = true := by
  induction q using QuorumSet.tree_induction with
  | _ th vs inner ih =>
    intro s t hst hs
    rw [QuorumSet.satisfiedSpec, decide_eq_true_iff] at hs ⊢
    have hv : vs.countP (fun x => decide (x ∈ s)) ≤ vs.countP (fun x => decide (x ∈ t)) := by
      apply List.countP_mono_left
      intro a _ ha
      simpa using hst (by simpa using ha)
    have hi := countSat_mono s t inner fun q hq => ih q hq s t hst
    omega

/-- C6: satisfaction is monotone in the node set — if `Q.is_quorum(S)`
and `S ⊆ T` then `Q.is_quorum(T)`, despite the short-circuiting
`take(threshold)` counting. -/
theorem C6_is_quorum_monotone (q : QuorumSet) (s t : Finset Nat)
    (hs : q.is_quorum s = true) (hst : s ⊆ t) : q.is_quorum t = true := by
  rw [is_quorum_eq_satisfiedSpec] at hs ⊢
  exact satisfiedSpec_mono q s t hst hs

/-- Witness for C6 at a concrete quorum set and a concrete inclusion. -/
theorem C6_witness :
    (QuorumSet.mk 2 [0, 1, 2] []).is_quorum ({1, 2} : Finset Nat) = true ∧
      ({1, 2} : Finset Nat) ⊆ {1, 2, 3} ∧
      (QuorumSet.mk 2 [0, 1, 2] []).is_quorum ({1, 2, 3} : Finset Nat) = true :=
  ⟨by decide, by decide,
    C6_is_quorum_monotone (QuorumSet.mk 2 [0, 1, 2] []) {1, 2} {1, 2, 3}
      (by decide) (by decide)⟩

/-- C9: the validator-match count is capped by `take(threshold)`, so it
never exceeds the threshold and `threshold - found_validator_matches`
cannot underflow, for any QuorumSet and any node set. -/
theorem C9_no_underflow (q : QuorumSet) (s : Finset Nat) :
    foundValidatorMatches q s ≤ q.threshold := by
  rw [foundValidatorMatches_eq]
  omega

/-- `get_minimal_quorums_step` from the source: if the current selection
is a quorum, emit it; otherwise pop the next candidate and explore the
include branch (`selection.insert(c)`) and then the exclude branch
(`selection.remove(c)` applied to the restored selection). The Rust
`Vec` is popped from its end; the model pops the list head (the initial
stack is built reversed so that candidate `0` is popped first). -/
def get_minimal_quorums_step (net : Network) : List Nat → Finset Nat → List (Finset Nat)
  | unprocessed, selection =>
    if net.is_quorum selection then [selection]
    else
      match unprocessed with
      | [] => []
      | c :: rest =>
          get_minimal_quorums_step net rest (insert c selection) ++
            get_minimal_quorums_step net rest ((insert c selection).erase c)

/-- The relation used by `sort_by(|x, y| x.len().cmp(&y.len()))`. -/
def cardLE (x y : Finset Nat) : Prop := x.card ≤ y.card

instance : DecidableRel cardLE := fun x y => Nat.decLe x.card y.card

instance : IsTotal (Finset Nat) cardLE := ⟨fun x y => Nat.le_total x.card y.card⟩

instance : IsTrans (Finset Nat) cardLE := ⟨fun _ _ _ h1 h2 => Nat.le_trans h1 h2⟩

/-- The body of the loop in `remove_non_minimal_node_sets`: keep
`node_set` iff no already-kept set is a subset of it (the
`find(...).is_none()` test of the source). -/
def keep_minimal_fold (minimal_node_sets : List (Finset Nat)) (node_set : Finset Nat) :
    List (Finset Nat) :=
  if ((minimal_node_sets.find? (fun x => decide (x ⊆ node_set))).isNone) then
    minimal_node_sets ++ [node_set]
  else
    minimal_node_sets

/-- `remove_non_minimal_node_sets`: stable-sort by cardinality, then walk
the sorted list keeping each set only when no previously kept set is
contained in it. -/
def remove_non_minimal_node_sets (node_sets : List (Finset Nat)) : List (Finset Nat) :=
  (node_sets.insertionSort cardLE).foldl keep_minimal_fold []

/-- `get_minimal_quorums`: run the search over all NodeIds (popped in
ascending order) starting from the empty selection, then filter out
non-minimal node sets. -/
def get_minimal_quorums (net : Network) : List (Finset Nat) :=
  remove_non_minimal_node_sets
    (get_minimal_quorums_step net (List.range net.nodes.length) ∅)

/-- `all_node_sets_interesect` (sic) from the source: every pair `(i, j)`
with `i < j` of the list has non-disjoint members. -/
def all_node_sets_interesect (node_sets : List (Finset Nat)) : Bool :=
  (List.range node_sets.length).all fun i =>
    (node_sets.drop (i + 1)).all fun y =>
      !decide (node_sets.getD i ∅ ∩ y = ∅)

/-- `has_quorum_intersection`: all minimal quorums pairwise intersect. -/
def has_quorum_intersection (net : Network) : Bool :=
  all_node_sets_interesect (get_minimal_quorums net)

theorem step_unfold_quorum (net : Network) (up : List Nat) (sel : Finset Nat)
    (h : net.is_quorum sel = true) :
    get_minimal_quorums_step net up sel = [sel] := by
  rw [get_minimal_quorums_step.eq_def]
  simp [h]

theorem step_unfold_nil (net : Network) (sel : Finset Nat)
    (h : net.is_quorum sel = false) :
    get_minimal_quorums_step net [] sel = [] := by
  rw [get_minimal_quorums_step.eq_def]
  simp [h]

theorem step_unfold_cons (net : Network) (c : Nat) (rest : List Nat) (sel : Finset Nat)
    (h : net.is_quorum sel = false) :
    get_minimal_quorums_step net (c :: rest) sel =
      get_minimal_quorums_step net rest (insert c sel) ++
        get_minimal_quorums_step net rest ((insert c sel).erase c) := by
  rw [get_minimal_quorums_step.eq_def]
  simp [h]

/-- A subset-minimal quorum: a quorum none of whose proper subsets is a
quorum. -/
def MinimalQuorum (net : Network) (m : Finset Nat) : Prop :=
  net.is_quorum m = true ∧ ∀ r ⊂ m, net.is_quorum r = false

theorem network_empty_not_quorum (net : Network) : net.is_quorum ∅ = false := by
  rw [Network.is_quorum]
  simp

/-- Every set emitted by the search is a quorum. -/
theorem step_sound (net : Network) :
    ∀ (up : List Nat) (sel q : Finset Nat),
      q ∈ get_minimal_quorums_step net up sel → net.is_quorum q = true := by
  intro up
  induction up with
  | nil =>
    intro sel q hq
    by_cases h : net.is_quorum sel = true
    · rw [step_unfold_quorum net _ _ h] at hq
      simp at hq
      rw [hq]; exact h
    · rw [step_unfold_nil net _ (Bool.not_eq_true _ ▸ eq_false_of_ne_true h)] at hq
      simp at hq
  | cons c rest ih =>
    intro sel q hq
    by_cases h : net.is_quorum sel = true
    · rw [step_unfold_quorum net _ _ h] at hq
      simp at hq
      rw [hq]; exact h
    · rw [step_unfold_cons net c rest sel (eq_false_of_ne_true h)] at hq
      rcases List.mem_append.mp hq with h1 | h2
      · exact ih _ q h1
      · exact ih _ q h2

/-- Every emitted set lies inside the selection plus the remaining
candidates. -/
theorem step_range (net : Network) :
    ∀ (up : List Nat) (sel q : Finset Nat),
      q ∈ get_minimal_quorums_step net up sel → q ⊆ sel ∪ up.toFinset := by
  intro up
  induction up with
  | nil =>
    intro sel q hq
    by_cases h : net.is_quorum sel = true
    · rw [step_unfold_quorum net _ _ h] at hq
      simp at hq
      rw [hq]
      exact Finset.subset_union_left
    · rw [step_unfold_nil net _ (eq_false_of_ne_true h)] at hq
      simp at hq
  | cons c rest ih =>
    intro sel q hq
    by_cases h : net.is_quorum sel = true
    · rw [step_unfold_quorum net _ _ h] at hq
      simp at hq
      rw [hq]
      exact Finset.subset_union_left
    · rw [step_unfold_cons net c rest sel (eq_false_of_ne_true h)] at hq
      have hsub : (insert c sel) ∪ rest.toFinset ⊆ sel ∪ (c :: rest).toFinset := by
        intro x hx
        simp only [Finset.mem_union, Finset.mem_insert, List.toFinset_cons] at hx ⊢
        tauto
      rcases List.mem_append.mp hq with h1 | h2
      · exact (ih _ q h1).trans hsub
      · refine (ih _ q h2).trans (Finset.union_subset_union_left ?_ |>.trans hsub)
        exact Finset.erase_subset c (insert c sel)

/-- Completeness of the search: a quorum `M` reachable from the current
frame (it extends the selection, uses only remaining candidates, and no
intermediate extension of the selection below `M` is itself a quorum) is
emitted. In particular every minimal quorum is emitted from the root
frame. -/
theorem step_complete (net : Network) :
    ∀ (up : List Nat) (sel M : Finset Nat),
      up.Nodup → (∀ c ∈ up, c ∉ sel) →
      net.is_quorum M = true → sel ⊆ M → M ⊆ sel ∪ up.toFinset →
      (∀ S, sel ⊆ S → S ⊂ M → net.is_quorum S = false) →
      M ∈ get_minimal_quorums_step net up sel := by
  intro up
  induction up with
  | nil =>
    intro sel M _ _ hM hselM hMsub _
    have hMeq : M = sel := by
      apply Finset.Subset.antisymm _ hselM
      simpa using hMsub
    by_cases h : net.is_quorum sel = true
    · rw [step_unfold_quorum net _ _ h]
      simp [hMeq]
    · rw [hMeq] at hM
      exact absurd hM h
  | cons c rest ih =>
    intro sel M hnodup hfresh hM hselM hMsub hmin
    by_cases h : net.is_quorum sel = true
    · have hMeq : M = sel := by
        by_contra hne
        have hss : sel ⊂ M := Finset.ssubset_iff_subset_ne.mpr ⟨hselM, Ne.symm hne⟩
        have := hmin sel Finset.Subset.rfl hss
        rw [this] at h
        exact absurd h (by simp)
      rw [step_unfold_quorum net _ _ h]
      simp [hMeq]
    · rw [step_unfold_cons net c rest sel (eq_false_of_ne_true h)]
      rw [List.mem_append]
      have hcrest : c ∉ rest := (List.nodup_cons.mp hnodup).1
      have hrestnodup : rest.Nodup := (List.nodup_cons.mp hnodup).2
      have hcsel : c ∉ sel := hfresh c (List.mem_cons_self c rest)
      by_cases hcM : c ∈ M
      · left
        apply ih (insert c sel) M hrestnodup
        · intro d hd
          simp only [Finset.mem_insert, not_or]
          exact ⟨fun hdc => hcrest (hdc ▸ hd), hfresh d (List.mem_cons_of_mem c hd)⟩
        · exact hM
        · exact Finset.insert_subset hcM hselM
        · intro x hx
          have := hMsub hx
          simp only [Finset.mem_union, Finset.mem_insert, List.toFinset_cons] at this ⊢
          tauto
        · intro S hS hSM
          exact hmin S ((Finset.subset_insert c sel).trans hS) hSM
      · right
        rw [Finset.erase_insert hcsel]
        apply ih sel M hrestnodup
        · exact fun d hd => hfresh d (List.mem_cons_of_mem c hd)
        · exact hM
        · exact hselM
        · intro x hx
          have hx2 := hMsub hx
          simp only [Finset.mem_union, List.toFinset_cons, Finset.mem_insert] at hx2 ⊢
          rcases hx2 with h1 | h2 | h3
          · exact Or.inl h1
          · exact absurd (h2 ▸ hx) hcM
          · exact Or.inr h3
        · exact hmin

/-- Below every quorum there is a subset-minimal quorum. -/
theorem exists_minimal_quorum_subset (net : Network) :
    ∀ (k : Nat) (Q : Finset Nat), Q.card ≤ k → net.is_quorum Q = true →
      ∃ M, M ⊆ Q ∧ MinimalQuorum net M := by
  intro k
  induction k with
  | zero =>
    intro Q hcard hQ
    have : Q = ∅ := Finset.card_eq_zero.mp (Nat.le_zero.mp hcard)
    rw [this, network_empty_not_quorum] at hQ
    exact absurd hQ (by simp)
  | succ k ih =>
    intro Q hcard hQ
    by_cases hex : ∃ r, r ⊂ Q ∧ net.is_quorum r = true
    · obtain ⟨r, hrQ, hr⟩ := hex
      have hcr : r.card < Q.card := Finset.card_lt_card hrQ
      obtain ⟨M, hMr, hMmin⟩ := ih r (by omega) hr
      exact ⟨M, hMr.trans hrQ.subset, hMmin⟩
    · push_neg at hex
      refine ⟨Q, Finset.Subset.rfl, hQ, fun r hr => ?_⟩
      exact eq_false_of_ne_true (hex r hr)

/-- A quorum contained in a minimal quorum equals it. -/
theorem minimal_eq_of_subset (net : Network) {M x : Finset Nat}
    (hM : MinimalQuorum net M) (hx : net.is_quorum x = true) (hxM : x ⊆ M) :
    x = M := by
  by_contra hne
  have hss : x ⊂ M := Finset.ssubset_iff_subset_ne.mpr ⟨hxM, hne⟩
  rw [hM.2 x hss] at hx
  exact absurd hx (by simp)

/-- Sets already kept stay in the result of the filter walk. -/
theorem mem_foldl_keep_of_mem_acc :
    ∀ (l acc : List (Finset Nat)) (x : Finset Nat),
      x ∈ acc → x ∈ l.foldl keep_minimal_fold acc := by
  intro l
  induction l with
  | nil => intro acc x hx; simpa using hx
  | cons ns rest ih =>
    intro acc x hx
    rw [List.foldl_cons]
    apply ih
    rw [keep_minimal_fold]
    split
    · exact List.mem_append_left _ hx
    · exact hx

/-- Main invariant of the minimality filter: walking a card-sorted list
of quorums where (a) every set of the accumulator is a minimal quorum and
(b) every minimal quorum contained in some listed set already sits in the
accumulator or in the list, the walk produces only minimal quorums, and
every minimal quorum of the context is covered by some kept set. -/
theorem keep_minimal_main (net : Network) :
    ∀ (l acc : List (Finset Nat)),
      (∀ x ∈ l, net.is_quorum x = true) →
      l.Pairwise cardLE →
      (∀ x ∈ acc, MinimalQuorum net x) →
      (∀ M, MinimalQuorum net M → (∃ y ∈ l, M ⊆ y) → M ∈ acc ∨ M ∈ l) →
      (∀ q ∈ l.foldl keep_minimal_fold acc, MinimalQuorum net q) ∧
      (∀ M, MinimalQuorum net M → M ∈ acc ∨ M ∈ l →
        ∃ x ∈ l.foldl keep_minimal_fold acc, x ⊆ M) := by
  intro l
  induction l with
  | nil =>
    intro acc _ _ hacc _
    refine ⟨by simpa using hacc, ?_⟩
    intro M _ hM
    rcases hM with hM | hM
    · exact ⟨M, by simpa using hM, Finset.Subset.rfl⟩
    · simp at hM
  | cons ns rest ih =>
    intro acc hl hpair hacc hcompl
    rw [List.foldl_cons]
    have hnsq : net.is_quorum ns = true := hl ns (List.mem_cons_self ns rest)
    have hl' : ∀ x ∈ rest, net.is_quorum x = true :=
      fun x hx => hl x (List.mem_cons_of_mem ns hx)
    have hpair' : rest.Pairwise cardLE := hpair.of_cons
    have hhead : ∀ y ∈ rest, cardLE ns y := fun y hy => List.rel_of_pairwise_cons hpair hy
    by_cases hkeep : ((acc.find? (fun x => decide (x ⊆ ns))).isNone) = true
    · have hkeq : keep_minimal_fold acc ns = acc ++ [ns] := by
        rw [keep_minimal_fold, if_pos hkeep]
      have hnosub : ∀ x ∈ acc, ¬ x ⊆ ns := by
        intro x hx
        have := List.find?_eq_none.mp (Option.isNone_iff_eq_none.mp hkeep) x hx
        simpa using this
      have hnsmin : MinimalQuorum net ns := by
        refine ⟨hnsq, fun r hr => ?_⟩
        by_contra hrq
        have hrq2 : net.is_quorum r = true := by
          revert hrq; cases net.is_quorum r <;> simp
        obtain ⟨M, hMr, hMmin⟩ :=
          exists_minimal_quorum_subset net r.card r le_rfl hrq2
        have hMns : M ⊂ ns := Finset.ssubset_of_subset_of_ssubset hMr hr
        rcases hcompl M hMmin ⟨ns, List.mem_cons_self ns rest, hMns.subset⟩ with hin | hin
        · exact hnosub M hin hMns.subset
        · rcases List.mem_cons.mp hin with heq | hin2
          · exact hMns.ne heq
          · have h1 : ns.card ≤ M.card := hhead M hin2
            have h2 : M.card < ns.card := Finset.card_lt_card hMns
            omega
      have hacc' : ∀ x ∈ acc ++ [ns], MinimalQuorum net x := by
        intro x hx
        rcases List.mem_append.mp hx with hx | hx
        · exact hacc x hx
        · simp at hx
          rw [hx]; exact hnsmin
      have hcompl' : ∀ M, MinimalQuorum net M → (∃ y ∈ rest, M ⊆ y) →
          M ∈ acc ++ [ns] ∨ M ∈ rest := by
        intro M hMmin ⟨y, hy, hMy⟩
        rcases hcompl M hMmin ⟨y, List.mem_cons_of_mem ns hy, hMy⟩ with hin | hin
        · exact Or.inl (List.mem_append_left _ hin)
        · rcases List.mem_cons.mp hin with heq | hin2
          · exact Or.inl (List.mem_append_right _ (by simp [heq]))
          · exact Or.inr hin2
      obtain ⟨ha, hb⟩ := ih (acc ++ [ns]) hl' hpair' hacc' hcompl'
      rw [hkeq]
      refine ⟨ha, ?_⟩
      intro M hMmin hM
      rcases hM with hM | hM
      · exact hb M hMmin (Or.inl (List.mem_append_left _ hM))
      · rcases List.mem_cons.mp hM with heq | hM2
        · exact hb M hMmin (Or.inl (List.mem_append_right _ (by simp [heq])))
        · exact hb M hMmin (Or.inr hM2)
    · have hkeq : keep_minimal_fold acc ns = acc := by
        rw [keep_minimal_fold, if_neg hkeep]
      obtain ⟨x0, hx0acc, hx0ns⟩ : ∃ x0 ∈ acc, x0 ⊆ ns := by
        cases hf : acc.find? (fun x => decide (x ⊆ ns)) with
        | none => rw [hf] at hkeep; simp at hkeep
        | some x0 =>
          refine ⟨x0, List.mem_of_find?_eq_some hf, ?_⟩
          have := List.find?_some hf
          simpa using this
      have hcompl' : ∀ M, MinimalQuorum net M → (∃ y ∈ rest, M ⊆ y) →
          M ∈ acc ∨ M ∈ rest := by
        intro M hMmin ⟨y, hy, hMy⟩
        rcases hcompl M hMmin ⟨y, List.mem_cons_of_mem ns hy, hMy⟩ with hin | hin
        · exact Or.inl hin
        · rcases List.mem_cons.mp hin with heq | hin2
          · subst heq
            have hx0q : net.is_quorum x0 = true := (hacc x0 hx0acc).1
            have : x0 = M := minimal_eq_of_subset net hMmin hx0q hx0ns
            exact Or.inl (this ▸ hx0acc)
          · exact Or.inr hin2
      obtain ⟨ha, hb⟩ := ih acc hl' hpair' hacc hcompl'
      rw [hkeq]
      refine ⟨ha, ?_⟩
      intro M hMmin hM
      rcases hM with hM | hM
      · exact hb M hMmin (Or.inl hM)
      · rcases List.mem_cons.mp hM with heq | hM2
        · subst heq
          have hx0q : net.is_quorum x0 = true := (hacc x0 hx0acc).1
          have : x0 = M := minimal_eq_of_subset net hMmin hx0q hx0ns
          exact hb M hMmin (Or.inl (this ▸ hx0acc))
        · exact hb M hMmin (Or.inr hM2)

theorem range_toFinset (n : Nat) : (List.range n).toFinset = Finset.range n := by
  ext x; simp

/-- Every minimal quorum over valid NodeIds is emitted by the search. -/
theorem minimal_mem_emitted (net : Network) (M : Finset Nat)
    (hMmin : MinimalQuorum net M) (hMrange : M ⊆ Finset.range net.nodes.length) :
    M ∈ get_minimal_quorums_step net (List.range net.nodes.length) ∅ := by
  apply step_complete net _ _ _ (List.nodup_range _) (by simp) hMmin.1
    (Finset.empty_subset M)
  · intro x hx
    simp only [Finset.mem_union, range_toFinset]
    exact Or.inr (hMrange hx)
  · intro S _ hSM
    exact hMmin.2 S hSM

theorem get_minimal_quorums_main (net : Network) :
    (∀ q ∈ get_minimal_quorums net, MinimalQuorum net q) ∧
      (∀ M, MinimalQuorum net M → M ⊆ Finset.range net.nodes.length →
        ∃ x ∈ get_minimal_quorums net, x ⊆ M) := by
  have hmain := keep_minimal_main net
    ((get_minimal_quorums_step net (List.range net.nodes.length) ∅).insertionSort cardLE) []
    (fun x hx => step_sound net _ _ x ((List.mem_insertionSort cardLE).mp hx))
    (List.sorted_insertionSort cardLE _)
    (by simp)
    (by
      intro M hMmin ⟨y, hy, hMy⟩
      right
      rw [List.mem_insertionSort cardLE] at hy ⊢
      have hyrange := step_range net _ _ y hy
      simp only [Finset.empty_union, range_toFinset] at hyrange
      exact minimal_mem_emitted net M hMmin (hMy.trans hyrange))
  rw [get_minimal_quorums, remove_non_minimal_node_sets]
  refine ⟨hmain.1, ?_⟩
  intro M hMmin hMrange
  exact hmain.2 M hMmin (Or.inr ((List.mem_insertionSort cardLE).mpr
    (minimal_mem_emitted net M hMmin hMrange)))

/-- C2: every element of `get_minimal_quorums` is a subset-minimal
quorum (a quorum none of whose proper subsets is a quorum), and hence no
element of the returned list is a proper subset of another element. -/
theorem C2_minimal_quorums_minimal (net : Network) (q : Finset Nat)
    (hq : q ∈ get_minimal_quorums net) :
    (net.is_quorum q = true ∧ ∀ r, r ⊂ q → net.is_quorum r = false) ∧
      ∀ r ∈ get_minimal_quorums net, ¬ r ⊂ q := by
  have hmain := get_minimal_quorums_main net
  have hqmin := hmain.1 q hq
  refine ⟨⟨hqmin.1, fun r hr => hqmin.2 r hr⟩, ?_⟩
  intro r hr hrq
  have hrmin := hmain.1 r hr
  have hfalse := hqmin.2 r hrq
  exact absurd hrmin.1 (by simp [hfalse])

/-- C3: completeness — every quorum over valid NodeIds contains some
element of `get_minimal_quorums` as a subset. -/
theorem C3_minimal_quorums_complete (net : Network) (Q : Finset Nat)
    (hQ : net.is_quorum Q = true) (hrange : Q ⊆ Finset.range net.nodes.length) :
    ∃ m ∈ get_minimal_quorums net, m ⊆ Q := by
  obtain ⟨M, hMQ, hMmin⟩ := exists_minimal_quorum_subset net Q.card Q le_rfl hQ
  obtain ⟨x, hx, hxM⟩ :=
    (get_minimal_quorums_main net).2 M hMmin (hMQ.trans hrange)
  exact ⟨x, hx, hxM.trans hMQ⟩

set_option maxRecDepth 10000 in
/-- Witness for C2: the concrete 3-node network; `{0, 1}` is in the
returned list, is a quorum, and is subset-minimal. -/
theorem C2_witness :
    ({0, 1} : Finset Nat) ∈ get_minimal_quorums correctTrivial ∧
      ((correctTrivial.is_quorum {0, 1} = true ∧
          ∀ r, r ⊂ ({0, 1} : Finset Nat) → correctTrivial.is_quorum r = false) ∧
        ∀ r ∈ get_minimal_quorums correctTrivial, ¬ r ⊂ ({0, 1} : Finset Nat)) :=
  ⟨by decide, C2_minimal_quorums_minimal correctTrivial {0, 1} (by decide)⟩

set_option maxRecDepth 10000 in
/-- Witness for C3: `{0, 1, 2}` is a quorum of the concrete network and
contains a returned minimal quorum. -/
theorem C3_witness :
    correctTrivial.is_quorum {0, 1, 2} = true ∧
      ({0, 1, 2} : Finset Nat) ⊆ Finset.range correctTrivial.nodes.length ∧
      ∃ m ∈ get_minimal_quorums correctTrivial, m ⊆ ({0, 1, 2} : Finset Nat) :=
  ⟨by decide, by decide,
    C3_minimal_quorums_complete correctTrivial {0, 1, 2} (by decide) (by decide)⟩

/-- The pairwise reading of `all_node_sets_interesect`: true iff every
`i < j` pair of entries has non-empty intersection. -/
theorem all_node_sets_interesect_iff (l : List (Finset Nat)) :
    all_node_sets_interesect l = true ↔
      ∀ i j, i < j → j < l.length → (l.getD i ∅ ∩ l.getD j ∅).Nonempty := by
  rw [all_node_sets_interesect]
  simp only [List.all_eq_true, List.mem_range, Bool.not_eq_true',
    decide_eq_false_iff_not]
  constructor
  · intro h i j hij hj
    have hi : i < l.length := by omega
    have hk : j - (i + 1) < (l.drop (i + 1)).length := by
      rw [List.length_drop]; omega
    have hy : l.getD j ∅ ∈ l.drop (i + 1) := by
      have hgd : (l.drop (i + 1))[j - (i + 1)] = l[j] := by
        rw [List.getElem_drop]
        congr 1
        omega
      rw [List.getD_eq_getElem?_getD, List.getElem?_eq_getElem hj]
      rw [← hgd]
      simp only [Option.getD_some]
      exact List.getElem_mem hk
    have := h i hi (l.getD j ∅) hy
    exact Finset.nonempty_iff_ne_empty.mpr this
  · intro h i hi y hy
    obtain ⟨k, hk, hky⟩ := List.getElem_of_mem hy
    rw [List.getElem_drop] at hky
    have hklen : i + 1 + k < l.length := by
      rw [List.length_drop] at hk; omega
    have hyget : y = l.getD (i + 1 + k) ∅ := by
      rw [List.getD_eq_getElem?_getD, List.getElem?_eq_getElem hklen]
      simp [hky]
    have := h i (i + 1 + k) (by omega) hklen
    rw [← hyget] at this
    exact Finset.nonempty_iff_ne_empty.mp this

/-- C4: `has_quorum_intersection` is true iff every `i < j` pair of
minimal quorums intersects; a list of length at most 1 trivially passes. -/
theorem C4_has_quorum_intersection (net : Network) :
    (has_quorum_intersection net = true ↔
      ∀ i j, i < j → j < (get_minimal_quorums net).length →
        ((get_minimal_quorums net).getD i ∅ ∩
          (get_minimal_quorums net).getD j ∅).Nonempty) ∧
      ((get_minimal_quorums net).length ≤ 1 → has_quorum_intersection net = true) := by
  constructor
  · rw [has_quorum_intersection]
    exact all_node_sets_interesect_iff _
  · intro hlen
    rw [has_quorum_intersection, all_node_sets_interesect_iff]
    intro i j hij hj
    omega

/-- Witness for C4 at the empty network, whose minimal-quorum list has
length 0 ≤ 1. -/
theorem C4_witness : has_quorum_intersection { nodes := [] } = true :=
  (C4_has_quorum_intersection { nodes := [] }).2 (by decide)

/-- State-passing model of the mutation in `get_minimal_quorums_step`:
the Rust function mutates `unprocessed` (pop, then push back) and
`selection` (insert, then remove) in place; this model threads both
through and returns them alongside the emitted quorums. `fuel` bounds
the recursion depth (any `fuel ≥ unprocessed.length` is enough, as the
restoration theorem shows; the recursion consumes one candidate per
level). -/
def get_minimal_quorums_stepMut (net : Network) :
    Nat → List Nat → Finset Nat → List (Finset Nat) × List Nat × Finset Nat
  | fuel, unprocessed, selection =>
    if net.is_quorum selection then ([selection], unprocessed, selection)
    else
      match fuel, unprocessed with
      | _, [] => ([], [], selection)
      | 0, up2 => ([], up2, selection)
      | f + 1, c :: rest =>
        let r1 := get_minimal_quorums_stepMut net f rest (insert c selection)
        let r2 := get_minimal_quorums_stepMut net f r1.2.1 (r1.2.2.erase c)
        (r1.1 ++ r2.1, c :: r2.2.1, r2.2.2)

/-- C10: totality and state restoration of the enumeration. The
recursive equation of the search holds with both recursive calls on the
strictly shorter candidate stack `rest`, and the state-passing model of
the mutation returns `unprocessed` exactly as it received it (and the
selection likewise), agreeing with the pure model — so the recursion is
well-founded and every call restores `unprocessed` before returning.
(`QuorumSet.is_quorum` itself is total by structural recursion on the
finite quorum-set tree; its defining equation is the last conjunct.) -/
theorem C10_termination_and_restoration (net : Network) :
    (∀ fuel (up : List Nat) (sel : Finset Nat),
      up.Nodup → (∀ c ∈ up, c ∉ sel) → up.length ≤ fuel →
      get_minimal_quorums_stepMut net fuel up sel =
        (get_minimal_quorums_step net up sel, up, sel)) ∧
    (∀ (c : Nat) (rest : List Nat) (sel : Finset Nat),
      net.is_quorum sel = false →
      get_minimal_quorums_step net (c :: rest) sel =
        get_minimal_quorums_step net rest (insert c sel) ++
          get_minimal_quorums_step net rest ((insert c sel).erase c)) ∧
    (∀ t vs inner s,
      (QuorumSet.mk t vs inner).is_quorum s =
        (foundValidatorMatches (QuorumSet.mk t vs inner) s +
            ((QuorumSet.filterIsQuorum inner s).take
              (t - foundValidatorMatches (QuorumSet.mk t vs inner) s)).length ==
          t)) := by
  refine ⟨?_, step_unfold_cons net, fun t vs inner s => by rw [QuorumSet.is_quorum]⟩
  intro fuel
  induction fuel with
  | zero =>
    intro up sel hnodup hfresh hlen
    have hup : up = [] := List.length_eq_zero.mp (Nat.le_zero.mp hlen)
    subst hup
    rw [get_minimal_quorums_stepMut.eq_def]
    by_cases h : net.is_quorum sel = true
    · rw [step_unfold_quorum net _ _ h]
      simp [h]
    · rw [step_unfold_nil net _ (eq_false_of_ne_true h)]
      simp [eq_false_of_ne_true h]
  | succ f ih =>
    intro up sel hnodup hfresh hlen
    rw [get_minimal_quorums_stepMut.eq_def]
    by_cases h : net.is_quorum sel = true
    · rw [step_unfold_quorum net _ _ h]
      simp [h]
    · cases up with
      | nil =>
        rw [step_unfold_nil net _ (eq_false_of_ne_true h)]
        simp [eq_false_of_ne_true h]
      | cons c rest =>
        have hcrest : c ∉ rest := (List.nodup_cons.mp hnodup).1
        have hrestnodup : rest.Nodup := (List.nodup_cons.mp hnodup).2
        have hcsel : c ∉ sel := hfresh c (List.mem_cons_self c rest)
        have hr1 : get_minimal_quorums_stepMut net f rest (insert c sel) =
            (get_minimal_quorums_step net rest (insert c sel), rest, insert c sel) := by
          apply ih rest (insert c sel) hrestnodup
          · intro d hd
            simp only [Finset.mem_insert, not_or]
            exact ⟨fun hdc => hcrest (hdc ▸ hd), hfresh d (List.mem_cons_of_mem c hd)⟩
          · simpa using Nat.le_of_succ_le_succ hlen
        have hr2 : get_minimal_quorums_stepMut net f rest ((insert c sel).erase c) =
            (get_minimal_quorums_step net rest ((insert c sel).erase c), rest,
              (insert c sel).erase c) := by
          rw [Finset.erase_insert hcsel]
          apply ih rest sel hrestnodup
          · exact fun d hd => hfresh d (List.mem_cons_of_mem c hd)
          · simpa using Nat.le_of_succ_le_succ hlen
        rw [step_unfold_cons net c rest sel (eq_false_of_ne_true h)]
        simp only [eq_false_of_ne_true h, Bool.false_eq_true, if_false]
        rw [hr1]
        simp only
        rw [hr2]
        simp only
        rw [Finset.erase_insert hcsel]

/-- Witness for C10 at a concrete network, stack and fuel. -/
theorem C10_witness :
    ([0, 1] : List Nat).Nodup ∧ (∀ c ∈ ([0, 1] : List Nat), c ∉ (∅ : Finset Nat)) ∧
      ([0, 1] : List Nat).length ≤ 2 ∧
      get_minimal_quorums_stepMut correctTrivial 2 [0, 1] ∅ =
        (get_minimal_quorums_step correctTrivial [0, 1] ∅, [0, 1], ∅) :=
  ⟨by decide, by decide, by decide,
    (C10_termination_and_restoration correctTrivial).1 2 [0, 1] ∅
      (by decide) (by decide) (by decide)⟩

/-- `ChangeEffect` as returned by a configurator. -/
inductive ChangeEffect : Type where
  | Change
  | NoChange
deriving DecidableEq

/-- Structural-equality test against `QuorumSet::new()` (the
`*existing_quorum_set == QuorumSet::new()` comparison of the source). -/
def QuorumSet.isNew : QuorumSet → Bool
  | .mk 0 [] [] => true
  | _ => false

theorem isNew_iff (q : QuorumSet) : q.isNew = true ↔ q = QuorumSet.new := by
  cases q with
  | mk t vs inner =>
    cases t <;> cases vs <;> cases inner <;> simp [QuorumSet.isNew, QuorumSet.new]

/-- `SimpleRandomQsc`: desired size, desired threshold and the
`adapt_until_satisfied` flag (`new` sets it to true, `never_adapt`
clears it). -/
structure SimpleRandomQsc where
  desired_quorum_set_size : Nat
  desired_threshold : Nat
  adapt_until_satisfied : Bool

/-- The branch condition of `SimpleRandomQsc::configure`. -/
def SimpleRandomQsc.configureCond (self : SimpleRandomQsc) (qs : QuorumSet) : Bool :=
  (self.adapt_until_satisfied &&
      decide (qs.validators.length < self.desired_quorum_set_size)) ||
    qs.isNew

/-- `SimpleRandomQsc::configure`. The `choose_multiple(thread_rng(), k)`
call is abstracted into the explicit argument `sample`: `sample
available k` stands for the sampled validator list; `ValidSampler`
states the contract `choose_multiple` guarantees. Returns the change
effect together with the updated FBAS (the source mutates
`fbas.nodes[node_id].quorum_set` in place). -/
def SimpleRandomQsc.configure (self : SimpleRandomQsc)
    (sample : List Nat → Nat → List Nat) (node_id : Nat) (fbas : Network) :
    ChangeEffect × Network :=
  let n := fbas.nodes.length
  let node := fbas.nodes.getD node_id dfltNode
  let existing_quorum_set := node.quorum_set
  if self.configureCond existing_quorum_set then
    let quorum_set_size := min self.desired_quorum_set_size n
    let threshold := min quorum_set_size self.desired_threshold
    let used_nodes : Finset Nat := existing_quorum_set.validators.toFinset
    let available_nodes : List Nat :=
      (List.range n).filter (fun x => decide (x ∉ used_nodes))
    let new_validators : List Nat := sample available_nodes quorum_set_size
    let new_quorum_set : QuorumSet :=
      .mk threshold (existing_quorum_set.validators ++ new_validators)
        existing_quorum_set.inner_quorum_sets
    (ChangeEffect.Change,
      { nodes := fbas.nodes.set node_id { node with quorum_set := new_quorum_set } })
  else
    (ChangeEffect.NoChange, fbas)

/-- The contract of `choose_multiple(rng, k)` on a slice: the returned
elements come from the slice, are pairwise-distinct positions (hence
distinct values on a duplicate-free slice), and there are
`min k available.length` of them. -/
def ValidSampler (sample : List Nat → Nat → List Nat) : Prop :=
  ∀ l k, (∀ x ∈ sample l k, x ∈ l) ∧ (l.Nodup → (sample l k).Nodup) ∧
    (sample l k).length = min k l.length

/-- A concrete sampler (take the first `k` elements) obeying the
contract; used by counterexamples and witnesses. -/
def takeSample : List Nat → Nat → List Nat := fun l k => l.take k

theorem takeSample_valid : ValidSampler takeSample := by
  intro l k
  refine ⟨fun x hx => ?_, fun h => ?_, List.length_take k l⟩
  · exact List.mem_of_mem_take hx
  · exact h.sublist (List.take_sublist k l)

theorem QuorumSet.validators_mk (t : Nat) (vs : List Nat) (inner : List QuorumSet) :
    (QuorumSet.mk t vs inner).validators = vs := rfl

theorem QuorumSet.threshold_mk (t : Nat) (vs : List Nat) (inner : List QuorumSet) :
    (QuorumSet.mk t vs inner).threshold = t := rfl

theorem available_length (vs : List Nat) (n : Nat) (hnd : vs.Nodup)
    (hrange : ∀ v ∈ vs, v < n) :
    ((List.range n).filter (fun x => decide (x ∉ vs.toFinset))).length =
      n - vs.length := by
  have hnodup : ((List.range n).filter (fun x => decide (x ∉ vs.toFinset))).Nodup :=
    (List.nodup_range n).filter _
  have hsub : vs.toFinset ⊆ Finset.range n := by
    intro x hx
    rw [List.mem_toFinset] at hx
    exact Finset.mem_range.mpr (hrange x hx)
  have hset : ((List.range n).filter (fun x => decide (x ∉ vs.toFinset))).toFinset =
      Finset.range n \ vs.toFinset := by
    ext x
    simp only [List.mem_toFinset, List.mem_filter, List.mem_range,
      Finset.mem_sdiff, Finset.mem_range, decide_eq_true_iff]
  rw [← List.toFinset_card_of_nodup hnodup, hset, Finset.card_sdiff hsub,
    Finset.card_range, List.toFinset_card_of_nodup hnd]

theorem validators_le_of_range (vs : List Nat) (n : Nat) (hnd : vs.Nodup)
    (hrange : ∀ v ∈ vs, v < n) : vs.length ≤ n := by
  have hsub : vs.toFinset ⊆ Finset.range n := by
    intro x hx
    rw [List.mem_toFinset] at hx
    exact Finset.mem_range.mpr (hrange x hx)
  have := Finset.card_le_card hsub
  rw [Finset.card_range, List.toFinset_card_of_nodup hnd] at this
  exact this

/-- C7 amended: when `configure` takes its rewrite branch, the new
validator list is duplicate-free and consists of the prior validators
plus `min quorum_set_size (n - e)` fresh ones (so its size is
`e + min quorum_set_size (n - e) ≤ n`, not `min desired_size n` in
general), and the threshold becomes `min quorum_set_size
desired_threshold` with `quorum_set_size = min desired_size n` —
assuming the prior validator list is duplicate-free with in-range
entries, and a sampler obeying the `choose_multiple` contract. -/
theorem C7_amended_configure_shape (self : SimpleRandomQsc)
    (sample : List Nat → Nat → List Nat) (node_id : Nat) (fbas : Network)
    (hs : ValidSampler sample) (hid : node_id < fbas.nodes.length)
    (hnd : (fbas.nodes.getD node_id dfltNode).quorum_set.validators.Nodup)
    (hrange : ∀ v ∈ (fbas.nodes.getD node_id dfltNode).quorum_set.validators,
      v < fbas.nodes.length)
    (hch : (self.configure sample node_id fbas).1 = ChangeEffect.Change) :
    ((self.configure sample node_id fbas).2.nodes.getD node_id
        dfltNode).quorum_set.validators.Nodup ∧
      ((self.configure sample node_id fbas).2.nodes.getD node_id
          dfltNode).quorum_set.validators.length =
        (fbas.nodes.getD node_id dfltNode).quorum_set.validators.length +
          min (min self.desired_quorum_set_size fbas.nodes.length)
            (fbas.nodes.length -
              (fbas.nodes.getD node_id dfltNode).quorum_set.validators.length) ∧
      ((self.configure sample node_id fbas).2.nodes.getD node_id
          dfltNode).quorum_set.validators.length ≤ fbas.nodes.length ∧
      ((self.configure sample node_id fbas).2.nodes.getD node_id
          dfltNode).quorum_set.threshold =
        min (min self.desired_quorum_set_size fbas.nodes.length)
          self.desired_threshold := by
  by_cases hcond :
      self.configureCond (fbas.nodes.getD node_id dfltNode).quorum_set = true
  case neg =>
    rw [SimpleRandomQsc.configure] at hch
    simp only [eq_false_of_ne_true hcond, Bool.false_eq_true, if_false] at hch
    exact ChangeEffect.noConfusion hch
  case pos =>
    have hres : self.configure sample node_id fbas =
        (ChangeEffect.Change,
          { nodes := fbas.nodes.set node_id
              { fbas.nodes.getD node_id dfltNode with
                  quorum_set := QuorumSet.mk
                    (min (min self.desired_quorum_set_size fbas.nodes.length)
                      self.desired_threshold)
                    ((fbas.nodes.getD node_id dfltNode).quorum_set.validators ++
                      sample
                        ((List.range fbas.nodes.length).filter (fun x =>
                          decide (x ∉
                            (fbas.nodes.getD node_id
                              dfltNode).quorum_set.validators.toFinset)))
                        (min self.desired_quorum_set_size fbas.nodes.length))
                    (fbas.nodes.getD node_id
                      dfltNode).quorum_set.inner_quorum_sets } }) := by
      rw [SimpleRandomQsc.configure]
      simp only [hcond, if_true]
    rw [hres]
    have hget : ∀ nd : Node, (fbas.nodes.set node_id nd).getD node_id dfltNode = nd := by
      intro nd
      simp [List.getD_eq_getElem?_getD, List.getElem?_set_self, hid]
    simp only [hget, QuorumSet.validators_mk, QuorumSet.threshold_mk]
    obtain ⟨hsmem, hsnd, hslen⟩ := hs
      ((List.range fbas.nodes.length).filter (fun x =>
        decide (x ∉ (fbas.nodes.getD node_id dfltNode).quorum_set.validators.toFinset)))
      (min self.desired_quorum_set_size fbas.nodes.length)
    have havnodup := (List.nodup_range fbas.nodes.length).filter (fun x =>
      decide (x ∉ (fbas.nodes.getD node_id dfltNode).quorum_set.validators.toFinset))
    have havlen := available_length
      (fbas.nodes.getD node_id dfltNode).quorum_set.validators fbas.nodes.length hnd hrange
    refine ⟨?_, ?_, ?_, trivial⟩
    · rw [List.nodup_append]
      refine ⟨hnd, hsnd havnodup, ?_⟩
      intro x hx hxs
      have := List.mem_filter.mp (hsmem x hxs)
      rw [decide_eq_true_iff, List.mem_toFinset] at this
      exact this.2 hx
    · rw [List.length_append, hslen, havlen]
    · rw [List.length_append, hslen, havlen]
      have he := validators_le_of_range
        (fbas.nodes.getD node_id dfltNode).quorum_set.validators fbas.nodes.length hnd hrange
      omega

/-- A 4-node FBAS whose node 0 already has one validator; used to refute
the size bound of C7. -/
def fbas4 : Network :=
  { nodes :=
      [ { public_key := "n0", quorum_set := .mk 1 [0] [] },
        { public_key := "n1", quorum_set := QuorumSet.new },
        { public_key := "n2", quorum_set := QuorumSet.new },
        { public_key := "n3", quorum_set := QuorumSet.new } ] }

/-- C7 as stated is false: with `desired_size = 2`, `n = 4` and one
pre-existing validator, the adapt branch appends `min(2, 3) = 2` fresh
validators, producing 3 validators — more than `min(desired_size, n) =
2` — under a sampler obeying the `choose_multiple` contract. -/
theorem C7_counterexample :
    ValidSampler takeSample ∧
      ((SimpleRandomQsc.mk 2 2 true).configure takeSample 0 fbas4).1 =
        ChangeEffect.Change ∧
      (((SimpleRandomQsc.mk 2 2 true).configure takeSample 0
            fbas4).2.nodes.getD 0 dfltNode).quorum_set.validators.length = 3 ∧
      ¬ ((((SimpleRandomQsc.mk 2 2 true).configure takeSample 0
            fbas4).2.nodes.getD 0 dfltNode).quorum_set.validators.length ≤
          min 2 fbas4.nodes.length) :=
  ⟨takeSample_valid, by decide, by decide, by decide⟩

/-- Witness for the amended C7 at a concrete configurator, FBAS and
sampler. -/
theorem C7_witness :
    (((SimpleRandomQsc.mk 2 2 true).configure takeSample 0
        fbas4).2.nodes.getD 0 dfltNode).quorum_set.validators.Nodup ∧
      (((SimpleRandomQsc.mk 2 2 true).configure takeSample 0
          fbas4).2.nodes.getD 0 dfltNode).quorum_set.validators.length =
        (fbas4.nodes.getD 0 dfltNode).quorum_set.validators.length +
          min (min 2 fbas4.nodes.length)
            (fbas4.nodes.length -
              (fbas4.nodes.getD 0 dfltNode).quorum_set.validators.length) ∧
      (((SimpleRandomQsc.mk 2 2 true).configure takeSample 0
          fbas4).2.nodes.getD 0 dfltNode).quorum_set.validators.length ≤
        fbas4.nodes.length ∧
      (((SimpleRandomQsc.mk 2 2 true).configure takeSample 0
          fbas4).2.nodes.getD 0 dfltNode).quorum_set.threshold =
        min (min 2 fbas4.nodes.length) 2 :=
  C7_amended_configure_shape (SimpleRandomQsc.mk 2 2 true) takeSample 0 fbas4
    takeSample_valid (by decide) (by decide) (by decide) (by decide)

theorem configureCond_iff (self : SimpleRandomQsc) (qs : QuorumSet) :
    self.configureCond qs = true ↔
      (self.adapt_until_satisfied = true ∧
          qs.validators.length < self.desired_quorum_set_size) ∨
        qs = QuorumSet.new := by
  rw [SimpleRandomQsc.configureCond]
  simp [isNew_iff]

theorem configure_nodes_cases (self : SimpleRandomQsc)
    (sample : List Nat → Nat → List Nat) (node_id : Nat) (fbas : Network) :
    (self.configure sample node_id fbas).2 = fbas ∨
      ∃ nd, (self.configure sample node_id fbas).2.nodes =
        fbas.nodes.set node_id nd := by
  rw [SimpleRandomQsc.configure]
  by_cases hcond :
      self.configureCond (fbas.nodes.getD node_id dfltNode).quorum_set = true
  · right
    refine ⟨{ fbas.nodes.getD node_id dfltNode with
        quorum_set := QuorumSet.mk
          (min (min self.desired_quorum_set_size fbas.nodes.length)
            self.desired_threshold)
          ((fbas.nodes.getD node_id dfltNode).quorum_set.validators ++
            sample
              ((List.range fbas.nodes.length).filter (fun x =>
                decide (x ∉
                  (fbas.nodes.getD node_id
                    dfltNode).quorum_set.validators.toFinset)))
              (min self.desired_quorum_set_size fbas.nodes.length))
          (fbas.nodes.getD node_id dfltNode).quorum_set.inner_quorum_sets },
      ?_⟩
    simp only [hcond, if_true]
  · left
    simp only [eq_false_of_ne_true hcond, Bool.false_eq_true, if_false]

/-- C8 amended: `configure` returns `Change` iff its branch condition
holds — `(adapting ∧ |validators| < desired_size) ∨ quorum set is the
empty QuorumSet` — which does `not` always entail that the quorum set
changed (see the counterexample); on `NoChange` the FBAS is untouched,
and no node other than `node_id` is ever modified. -/
theorem C8_amended_configure_change (self : SimpleRandomQsc)
    (sample : List Nat → Nat → List Nat) (node_id : Nat) (fbas : Network) :
    ((self.configure sample node_id fbas).1 = ChangeEffect.Change ↔
      (self.adapt_until_satisfied = true ∧
          (fbas.nodes.getD node_id dfltNode).quorum_set.validators.length <
            self.desired_quorum_set_size) ∨
        (fbas.nodes.getD node_id dfltNode).quorum_set = QuorumSet.new) ∧
      ((self.configure sample node_id fbas).1 = ChangeEffect.NoChange →
        (self.configure sample node_id fbas).2 = fbas) ∧
      (∀ j, j ≠ node_id →
        (self.configure sample node_id fbas).2.nodes.getD j dfltNode =
          fbas.nodes.getD j dfltNode) := by
  by_cases hcond :
      self.configureCond (fbas.nodes.getD node_id dfltNode).quorum_set = true
  · have h1 : (self.configure sample node_id fbas).1 = ChangeEffect.Change := by
      rw [SimpleRandomQsc.configure]
      simp only [hcond, if_true]
    refine ⟨?_, ?_, ?_⟩
    · rw [h1]
      simp only [true_iff]
      exact (configureCond_iff self _).mp hcond
    · intro hno
      rw [h1] at hno
      exact ChangeEffect.noConfusion hno
    · intro j hj
      rcases configure_nodes_cases self sample node_id fbas with hsame | ⟨nd, hset⟩
      · rw [hsame]
      · rw [hset, List.getD_eq_getElem?_getD, List.getD_eq_getElem?_getD,
          List.getElem?_set_ne (fun he => hj he.symm)]
  · have h1 : (self.configure sample node_id fbas).1 = ChangeEffect.NoChange := by
      rw [SimpleRandomQsc.configure]
      simp only [eq_false_of_ne_true hcond, Bool.false_eq_true, if_false]
    have h2 : (self.configure sample node_id fbas).2 = fbas := by
      rw [SimpleRandomQsc.configure]
      simp only [eq_false_of_ne_true hcond, Bool.false_eq_true, if_false]
    refine ⟨?_, fun _ => h2, fun j _ => by rw [h2]⟩
    rw [h1]
    constructor
    · intro hno
      exact ChangeEffect.noConfusion hno
    · intro hcprop
      exact absurd ((configureCond_iff self _).mpr hcprop) hcond

/-- A single-node FBAS whose node already has validator `[0]`. -/
def fbas1 : Network :=
  { nodes := [ { public_key := "n0", quorum_set := .mk 1 [0] [] } ] }

/-- C8 as stated is false: with `desired_size = 5` and only one node,
the adapt branch is taken (1 < 5) but there is no fresh node available,
so the quorum set — indeed the entire FBAS — is left exactly as it was,
yet `configure` returns `Change`. -/
theorem C8_counterexample :
    ((SimpleRandomQsc.mk 5 3 true).configure takeSample 0 fbas1).1 =
      ChangeEffect.Change ∧
      (((SimpleRandomQsc.mk 5 3 true).configure takeSample 0
          fbas1).2.nodes.getD 0 dfltNode).quorum_set =
        (fbas1.nodes.getD 0 dfltNode).quorum_set ∧
      ((SimpleRandomQsc.mk 5 3 true).configure takeSample 0 fbas1).2 = fbas1 :=
  ⟨rfl, rfl, rfl⟩

/-- Witness for the amended C8: a non-adapting configurator on a
configured node returns `NoChange` and leaves the FBAS untouched. -/
theorem C8_witness :
    ((SimpleRandomQsc.mk 5 3 false).configure takeSample 0 fbas1).1 =
      ChangeEffect.NoChange ∧
      ((SimpleRandomQsc.mk 5 3 false).configure takeSample 0 fbas1).2 = fbas1 :=
  ⟨by decide,
    (C8_amended_configure_change (SimpleRandomQsc.mk 5 3 false) takeSample 0
        fbas1).2.1 (by decide)⟩
